import Mathlib

/-!
Formal model of the Phantom memory and decision core (main.1.4.py).

The Python source is embedded shallowly: strings become lists of
characters, SQLite tables become Lean lists, timestamps become rational
hour counts, and the two floating-point domains of the program (trust
arithmetic and the conqueror score) become exact rational respectively
real arithmetic.  External collaborators (the embedding model, the LLM
classifier, the filesystem) enter as explicit parameters of the
functions that consult them.
-/

/-- Model of Python str.lower for a single ASCII character. -/
def lowerChar (c : Char) : Char :=
  if 'A' ≤ c ∧ c ≤ 'Z' then Char.ofNat (c.toNat + 32) else c

/-- Model of Python str.lower on a whole string. -/
def lowerStr (s : List Char) : List Char := s.map lowerChar

/-- Boolean prefix test on character lists. -/
def isPrefixL : List Char → List Char → Bool
  | [], _ => true
  | _ :: _, [] => false
  | a :: as, b :: bs => a == b && isPrefixL as bs

/-- Model of the Python substring operator needle in hay. -/
def containsSub (needle : List Char) : List Char → Bool
  | [] => isPrefixL needle []
  | c :: t => isPrefixL needle (c :: t) || containsSub needle t

/-- ASCII whitespace, as recognised by Python str.split(). -/
def isSpaceChar (c : Char) : Bool :=
  c == ' ' || c == '\t' || c == '\n' || c == '\r'

/-- Accumulator-based word splitter; the accumulator holds the current
word reversed. -/
def wordsAux : List Char → List Char → List (List Char)
  | [], acc => if acc.isEmpty then [] else [acc.reverse]
  | c :: cs, acc =>
    if isSpaceChar c then
      if acc.isEmpty then wordsAux cs [] else acc.reverse :: wordsAux cs []
    else wordsAux cs (c :: acc)

/-- Model of Python str.split() with no argument: splits on whitespace
runs and never returns empty words. -/
def splitWords (s : List Char) : List (List Char) := wordsAux s []

/-- Value of a digit string, as computed by Python int() on a string of
digit characters. -/
def digitsToNat (ds : List Char) : ℕ :=
  ds.foldl (fun n c => 10 * n + (c.toNat - 48)) 0

/-- Model of Python round to the nearest integer: round half to even
(banker's rounding). -/
def roundHalfEven {α : Type} [LinearOrderedField α] [FloorRing α] (x : α) : ℤ :=
  if Int.fract x < 1/2 then ⌊x⌋
  else if 1/2 < Int.fract x then ⌊x⌋ + 1
  else if ⌊x⌋ % 2 = 0 then ⌊x⌋ else ⌊x⌋ + 1

/-- Model of Python round(x, 2): round half to even at two decimal
places. -/
def round2 {α : Type} [LinearOrderedField α] [FloorRing α] (x : α) : α :=
  ((roundHalfEven (x * 100) : ℤ) : α) / 100

/-- Insert an element into a list that is sorted descending by key,
placing it before the first element of smaller or equal key, which is
exactly where Python's stable sort with reverse=True keeps it. -/
def insertDesc {α β : Type} [LinearOrder β] (key : α → β) (x : α) : List α → List α
  | [] => [x]
  | y :: ys => if key y ≤ key x then x :: y :: ys else y :: insertDesc key x ys

/-- Stable descending insertion sort, modelling Python list.sort with
reverse=True. -/
def sortByDesc {α β : Type} [LinearOrder β] (key : α → β) : List α → List α
  | [] => []
  | x :: xs => insertDesc key x (sortByDesc key xs)

theorem insertDesc_perm {α β : Type} [LinearOrder β] (key : α → β) (x : α) :
    ∀ l : List α, (insertDesc key x l).Perm (x :: l) := by
  intro l
  induction l with
  | nil => simp [insertDesc]
  | cons y ys ih =>
    by_cases h : key y ≤ key x
    · simp [insertDesc, h]
    · simp only [insertDesc, if_neg h]
      exact (ih.cons y).trans (List.Perm.swap x y ys)

theorem sortByDesc_perm {α β : Type} [LinearOrder β] (key : α → β) :
    ∀ l : List α, (sortByDesc key l).Perm l := by
  intro l
  induction l with
  | nil => simp [sortByDesc]
  | cons x xs ih =>
    exact (insertDesc_perm key x (sortByDesc key xs)).trans (ih.cons x)

theorem insertDesc_sorted {α β : Type} [LinearOrder β] (key : α → β) (x : α) :
    ∀ l : List α, l.Sorted (fun a b => key b ≤ key a) →
      (insertDesc key x l).Sorted (fun a b => key b ≤ key a) := by
  intro l
  induction l with
  | nil => intro _; simp [insertDesc]
  | cons y ys ih =>
    intro hs
    rcases List.sorted_cons.1 hs with ⟨hy, hys⟩
    by_cases h : key y ≤ key x
    · simp only [insertDesc, if_pos h]
      refine List.sorted_cons.2 ⟨?_, hs⟩
      intro b hb
      rcases List.mem_cons.1 hb with rfl | hb2
      · exact h
      · exact le_trans (hy b hb2) h
    · simp only [insertDesc, if_neg h]
      refine List.sorted_cons.2 ⟨?_, ih hys⟩
      intro b hb
      rcases List.mem_cons.1 ((insertDesc_perm key x ys).mem_iff.1 hb) with rfl | hb2
      · exact le_of_not_le h
      · exact hy b hb2

theorem sortByDesc_sorted {α β : Type} [LinearOrder β] (key : α → β) :
    ∀ l : List α, (sortByDesc key l).Sorted (fun a b => key b ≤ key a) := by
  intro l
  induction l with
  | nil => simp [sortByDesc]
  | cons x xs ih => exact insertDesc_sorted key x (sortByDesc key xs) ih

/-- Retention tier of a memory record. -/
inductive Tier where
  | tactical
  | strategic
  deriving DecidableEq, Repr

/-- Recorded outcome of a memory record. -/
inductive Outcome where
  | success
  | neutral
  | failure
  deriving DecidableEq, Repr

/-- Row of the memories table: content, source, outcome, confidence,
tier, creation time (in hours on a rational clock) and stored embedding
vector. -/
structure MemRow where
  content : List Char
  source : List Char
  outcome : Outcome
  confidence : ℚ
  tier : Tier
  createdAt : ℚ
  embedding : List ℚ
  deriving DecidableEq, Repr

/-- Row of the scars table. -/
structure Scar where
  severity : ℚ
  lesson : List Char
  deriving DecidableEq, Repr

/-- Outcome weight map from calculate_trust_score. -/
def outcome_score : Outcome → ℚ
  | .success => 1
  | .neutral => 1/2
  | .failure => 1/10

/-- Embedding of calculate_trust_score: trust is half the outcome weight
plus three tenths of a 48-hour linear decay floored at 0.1 plus one
fifth of the source credibility, rounded to two decimals.  A timestamp
that fails to parse corresponds to hoursOld = 0. -/
def calculate_trust_score (outcome : Outcome) (hoursOld : ℚ) (source : List Char) : ℚ :=
  let oScore := outcome_score outcome
  let decay := max (1/10) (1 - hoursOld / 48)
  let cred : ℚ :=
    if containsSub "Admin".data source || containsSub "CEO".data source ||
        containsSub "Executive".data source then 1 else 3/5
  round2 (oScore * (1/2) + decay * (3/10) + cred * (1/5))

/-- Tier half-life in hours, from the decay branch of
get_relevant_context. -/
def half_life : Tier → ℚ
  | .strategic => 720
  | .tactical => 48

/-- Tier-dependent decay from get_relevant_context: a linear decay over
the tier's half-life, floored at 0.1. -/
def tier_decay (tier : Tier) (hoursOld : ℚ) : ℚ :=
  max (1/10) (1 - hoursOld / half_life tier)

/-- Per-record score computed inside get_relevant_context: seven tenths
confidence plus three tenths tier decay. -/
def retrieval_trust (r : MemRow) (now : ℚ) : ℚ :=
  r.confidence * (7/10) + tier_decay r.tier (now - r.createdAt) * (3/10)

/-- Embedding of MemoryManager.get_relevant_context: score every stored
row by retrieval_trust, sort descending (stably), truncate to topK and
present each entry as (content, trust, tier).  The query text is a
parameter of the source function but is never read by it. -/
def get_relevant_context (mems : List MemRow) (now : ℚ) (query_text : List Char)
    (topK : ℕ) : List (List Char × ℚ × Tier) :=
  (sortByDesc (fun t => t.2.1)
    (mems.map (fun r => (r.content, retrieval_trust r now, r.tier)))).take topK

/-- Long-horizon marker words from save_intelligent_memory. -/
def strategic_markers : List (List Char) :=
  ["vision".data, "strategy".data, "investor".data, "plan".data]

/-- Tier assignment logic of save_intelligent_memory. -/
def assign_tier (content : List Char) (confidence : ℚ) : Tier :=
  if (9/10 : ℚ) ≤ confidence ∨
      strategic_markers.any (fun w => containsSub w (lowerStr content)) = true then
    .strategic
  else .tactical

/-- Embedding of MemoryManager.save_intelligent_memory: appends one row
with the computed tier; the embedding vector comes from the external
encoder and is passed in. -/
def save_intelligent_memory (mems : List MemRow) (content source : List Char)
    (outcome : Outcome) (confidence : ℚ) (createdAt : ℚ) (embedding : List ℚ) :
    List MemRow :=
  mems ++ [⟨content, source, outcome, confidence, assign_tier content confidence,
            createdAt, embedding⟩]

/-- Matching predicate of MemoryManager.check_trauma: some word of the
lowercased lesson occurs as a substring of the lowercased input. -/
def lesson_matches (lesson user_input : List Char) : Bool :=
  (splitWords (lowerStr lesson)).any (fun w => containsSub w (lowerStr user_input))

/-- Embedding of MemoryManager.check_trauma: scan the scar rows in table
order and return the severity and lesson of the first row whose lesson
matches the input. -/
def check_trauma : List Scar → List Char → Option (ℚ × List Char)
  | [], _ => none
  | s :: rest, input =>
    if lesson_matches s.lesson input then some (s.severity, s.lesson)
    else check_trauma rest input

/-- Embedding of check_damage_budget.  The Python function mutates the
global counter CURRENT_DAMAGE_TAKEN; here the counter is threaded
explicitly: the result is the (allowed, new counter) pair. -/
def check_damage_budget (currentDamage estimatedRiskCost maxDamageLimit : ℚ) :
    Bool × ℚ :=
  if currentDamage + estimatedRiskCost > maxDamageLimit then (false, currentDamage)
  else (true, currentDamage + estimatedRiskCost)

/-- C2: the tier-dependent decay used at retrieval time equals
clamp(1 - age / half_life(tier), 0.1, 1.0) for non-negative ages, with
half-lives 720 h (strategic) and 48 h (tactical); a strategic record
reaches the 0.1 floor at 30 days (and not before 648 h = 27 days),
while a tactical record is at the floor from 48 h on. -/
theorem claim_c2_tier_decay (h : ℚ) (tier : Tier) (hh : 0 ≤ h) :
    tier_decay tier h = max (1/10) (min 1 (1 - h / half_life tier)) ∧
    half_life Tier.strategic = 720 ∧ half_life Tier.tactical = 48 ∧
    tier_decay Tier.strategic 720 = 1/10 ∧
    (48 ≤ h → tier_decay Tier.tactical h = 1/10) ∧
    (h < 648 → 1/10 < tier_decay Tier.strategic h) := by
  refine ⟨?_, rfl, rfl, ?_, ?_, ?_⟩
  · have hpos : (0 : ℚ) < half_life tier := by cases tier <;> norm_num [half_life]
    have hle : 1 - h / half_life tier ≤ 1 := by
      have := div_nonneg hh (le_of_lt hpos)
      linarith
    rw [min_eq_right hle]
    rfl
  · have : (1 : ℚ) - 720 / 720 = 0 := by norm_num
    simp [tier_decay, half_life]
  · intro h48
    have h1 : (1 : ℚ) ≤ h / 48 := (one_le_div (by norm_num)).2 h48
    have : (1 : ℚ) - h / 48 ≤ 1/10 := by linarith
    simp only [tier_decay, half_life]
    exact max_eq_left this
  · intro h648
    have h1 : h / 720 < 9/10 := by
      rw [div_lt_iff₀ (by norm_num)]
      linarith
    have h2 : (1 : ℚ)/10 < 1 - h / 720 := by linarith
    simp only [tier_decay, half_life]
    rw [max_eq_right (le_of_lt h2)]
    exact h2

theorem claim_c2_witness :
    tier_decay Tier.strategic 720 = 1/10 ∧ tier_decay Tier.tactical 720 = 1/10 :=
  ⟨(claim_c2_tier_decay 720 Tier.strategic (by norm_num)).2.2.2.1,
   (claim_c2_tier_decay 720 Tier.tactical (by norm_num)).2.2.2.2.1 (by norm_num)⟩

/-- C3: the budget guard allows an action exactly when the current
total plus its cost stays within the ceiling, adds the cost on
approval, leaves the counter unchanged on denial, and on the concrete
scenario ceiling 5000 with two costs of 3000 approves the first,
denies the second and ends with the counter at 3000. -/
theorem claim_c3_budget (current cost ceiling : ℚ) :
    ((check_damage_budget current cost ceiling).1 = true ↔
      current + cost ≤ ceiling) ∧
    (check_damage_budget current cost ceiling).2 =
      (if current + cost ≤ ceiling then current + cost else current) ∧
    check_damage_budget 0 3000 5000 = (true, 3000) ∧
    check_damage_budget 3000 3000 5000 = (false, 3000) := by
  refine ⟨?_, ?_, ?_, ?_⟩
  · by_cases hc : current + cost ≤ ceiling
    · simp [check_damage_budget, not_lt.2 hc, hc]
    · simp [check_damage_budget, lt_of_not_le hc, hc]
  · by_cases hc : current + cost ≤ ceiling
    · simp [check_damage_budget, not_lt.2 hc, hc]
    · simp [check_damage_budget, lt_of_not_le hc, hc]
  · norm_num [check_damage_budget]
  · norm_num [check_damage_budget]

/-- C4: check_trauma returns the severity/lesson pair of the first scar
in ledger order whose lesson shares a (case-insensitive, substring)
word with the input, returns none exactly when no scar matches, and in
particular returns none on the empty ledger. -/
theorem claim_c4_check_trauma (scars : List Scar) (input : List Char) :
    check_trauma scars input =
      (scars.find? (fun s => lesson_matches s.lesson input)).map
        (fun s => (s.severity, s.lesson)) ∧
    (check_trauma scars input = none ↔
      ∀ s ∈ scars, lesson_matches s.lesson input = false) ∧
    check_trauma [] input = none := by
  refine ⟨?_, ?_, rfl⟩
  · induction scars with
    | nil => rfl
    | cons s rest ih =>
      by_cases h : lesson_matches s.lesson input
      · simp [check_trauma, h]
      · simp only [check_trauma, if_neg h]
        rw [ih, List.find?_cons_of_neg]
        simpa using h
  · induction scars with
    | nil => simp [check_trauma]
    | cons s rest ih =>
      by_cases h : lesson_matches s.lesson input
      · simp [check_trauma, h]
      · simp [check_trauma, h, ih]

theorem roundHalfEven_ge_floor {α : Type} [LinearOrderedField α] [FloorRing α]
    (x : α) : ⌊x⌋ ≤ roundHalfEven x := by
  unfold roundHalfEven
  split_ifs <;> omega

theorem roundHalfEven_le_floor_add_one {α : Type} [LinearOrderedField α]
    [FloorRing α] (x : α) : roundHalfEven x ≤ ⌊x⌋ + 1 := by
  unfold roundHalfEven
  split_ifs <;> omega

theorem roundHalfEven_mono {α : Type} [LinearOrderedField α] [FloorRing α]
    {x y : α} (h : x ≤ y) : roundHalfEven x ≤ roundHalfEven y := by
  rcases lt_or_le ⌊x⌋ ⌊y⌋ with hf | hf
  · calc roundHalfEven x ≤ ⌊x⌋ + 1 := roundHalfEven_le_floor_add_one x
      _ ≤ ⌊y⌋ := by omega
      _ ≤ roundHalfEven y := roundHalfEven_ge_floor y
  · have heq : ⌊x⌋ = ⌊y⌋ := le_antisymm (Int.floor_le_floor h) hf
    have hfr : Int.fract x ≤ Int.fract y := by
      unfold Int.fract
      rw [heq]
      linarith
    unfold roundHalfEven
    rw [heq]
    split_ifs <;> first | omega | linarith

theorem round2_mono {α : Type} [LinearOrderedField α] [FloorRing α]
    {x y : α} (h : x ≤ y) : round2 x ≤ round2 y := by
  unfold round2
  have h100 : x * 100 ≤ y * 100 := by linarith
  have := roundHalfEven_mono h100
  have hc : ((roundHalfEven (x * 100) : ℤ) : α) ≤ ((roundHalfEven (y * 100) : ℤ) : α) :=
    Int.cast_le.2 this
  exact div_le_div_of_nonneg_right hc (by norm_num) |>.trans_eq rfl

/-- Embedding of calculate_conqueror_score.  The Python exponent
impact ** 1.5 is the real power; round(score, 2) is round2; a zero
denominator short-circuits to 0.  The scar count doubles the effective
risk weight per scar. -/
noncomputable def calculate_conqueror_score
    (impact certainty reversibility risk capital time_cost hist_penalty : ℝ)
    (scar_count : ℕ) : ℝ :=
  let adjusted_risk := risk * (1 + (scar_count : ℝ) * 2)
  let numerator := impact ^ (1.5 : ℝ) * certainty * reversibility
  let denominator := adjusted_risk * capital * time_cost * hist_penalty
  if denominator = 0 then 0 else round2 (numerator / denominator)

/-- C7: whenever any factor of the denominator (scar-adjusted risk,
capital, time cost, or historical penalty) is zero, the conqueror score
is exactly 0; the function is total, so nothing is raised. -/
theorem claim_c7_zero_denominator
    (impact certainty reversibility risk capital time_cost hist_penalty : ℝ)
    (scar_count : ℕ)
    (hz : risk * (1 + (scar_count : ℝ) * 2) = 0 ∨ capital = 0 ∨
      time_cost = 0 ∨ hist_penalty = 0) :
    calculate_conqueror_score impact certainty reversibility risk capital
      time_cost hist_penalty scar_count = 0 := by
  have hd : risk * (1 + (scar_count : ℝ) * 2) * capital * time_cost * hist_penalty
      = 0 := by
    rcases hz with h | h | h | h <;> simp [h]
  simp [calculate_conqueror_score, hd]

theorem claim_c7_witness :
    calculate_conqueror_score 1 1 1 1 0 1 1 0 = 0 :=
  claim_c7_zero_denominator 1 1 1 1 0 1 1 0 (Or.inr (Or.inl rfl))

/-- C6 counterexample: the function returns round(score, 2), not the
bare formula.  With all arguments positive (impact 1, certainty 1,
reversibility 1, risk 1000, capital 1, time 1, penalty 1) the returned
scores for scar counts 0 and 1 are both 0.00, so the returned score is
not strictly decreasing in the scar count; and at risk 3 the returned
value 0.33 differs from the formula value 1/3. -/
theorem claim_c6_counterexample :
    calculate_conqueror_score 1 1 1 1000 1 1 1 1 =
      calculate_conqueror_score 1 1 1 1000 1 1 1 0 ∧
    calculate_conqueror_score 1 1 1 3 1 1 1 0 ≠
      ((1:ℝ) ^ (1.5:ℝ) * 1 * 1) / (3 * (1 + 2 * ((0:ℕ):ℝ)) * 1 * 1 * 1) := by
  have e0 : calculate_conqueror_score 1 1 1 1000 1 1 1 0 = 0 := by
    unfold calculate_conqueror_score
    norm_num [Real.one_rpow, round2, roundHalfEven, Int.fract]
  have e1 : calculate_conqueror_score 1 1 1 1000 1 1 1 1 = 0 := by
    unfold calculate_conqueror_score
    norm_num [Real.one_rpow, round2, roundHalfEven, Int.fract]
  have e3 : calculate_conqueror_score 1 1 1 3 1 1 1 0 = 33/100 := by
    unfold calculate_conqueror_score
    norm_num [Real.one_rpow, round2, roundHalfEven, Int.fract]
  refine ⟨by rw [e0, e1], ?_⟩
  rw [e3, Real.one_rpow]
  norm_num

/-- C6 amended: the decision score is round(formula, 2) where formula is
(impact^1.5 * certainty * reversibility) divided by
(risk * (1 + 2*scar_count) * capital * time_cost * hist_penalty);
holding all other arguments fixed at positive values the unrounded
formula is strictly decreasing in the scar count, and the returned
(rounded) score is therefore non-increasing in the scar count. -/
theorem claim_c6_amended
    (impact certainty reversibility risk capital time_cost hist_penalty : ℝ)
    (s t : ℕ) (hst : s < t)
    (h1 : 0 < impact) (h2 : 0 < certainty) (h3 : 0 < reversibility)
    (h4 : 0 < risk) (h5 : 0 < capital) (h6 : 0 < time_cost)
    (h7 : 0 < hist_penalty) :
    calculate_conqueror_score impact certainty reversibility risk capital
        time_cost hist_penalty s =
      round2 ((impact ^ (1.5:ℝ) * certainty * reversibility) /
        (risk * (1 + (s:ℝ) * 2) * capital * time_cost * hist_penalty)) ∧
    (impact ^ (1.5:ℝ) * certainty * reversibility) /
        (risk * (1 + (t:ℝ) * 2) * capital * time_cost * hist_penalty) <
      (impact ^ (1.5:ℝ) * certainty * reversibility) /
        (risk * (1 + (s:ℝ) * 2) * capital * time_cost * hist_penalty) ∧
    calculate_conqueror_score impact certainty reversibility risk capital
        time_cost hist_penalty t ≤
      calculate_conqueror_score impact certainty reversibility risk capital
        time_cost hist_penalty s := by
  have hnum : 0 < impact ^ (1.5:ℝ) * certainty * reversibility := by
    have := Real.rpow_pos_of_pos h1 (1.5:ℝ)
    positivity
  have hK : 0 < risk * capital * time_cost * hist_penalty := by positivity
  have hfac : ∀ n : ℕ, (0:ℝ) < 1 + (n:ℝ) * 2 := by
    intro n
    have : (0:ℝ) ≤ (n:ℝ) := Nat.cast_nonneg n
    linarith
  have hden : ∀ n : ℕ,
      risk * (1 + (n:ℝ) * 2) * capital * time_cost * hist_penalty =
        (1 + (n:ℝ) * 2) * (risk * capital * time_cost * hist_penalty) := by
    intro n; ring
  have hdpos : ∀ n : ℕ,
      0 < risk * (1 + (n:ℝ) * 2) * capital * time_cost * hist_penalty := by
    intro n
    rw [hden n]
    exact mul_pos (hfac n) hK
  have hlt : risk * (1 + (s:ℝ) * 2) * capital * time_cost * hist_penalty <
      risk * (1 + (t:ℝ) * 2) * capital * time_cost * hist_penalty := by
    rw [hden s, hden t]
    have hcast : (s:ℝ) < (t:ℝ) := Nat.cast_lt.2 hst
    have : (1 + (s:ℝ) * 2) < (1 + (t:ℝ) * 2) := by linarith
    exact mul_lt_mul_of_pos_right this hK
  have hstrict := div_lt_div_of_pos_left hnum (hdpos s) hlt
  have heq : ∀ n : ℕ,
      calculate_conqueror_score impact certainty reversibility risk capital
          time_cost hist_penalty n =
        round2 ((impact ^ (1.5:ℝ) * certainty * reversibility) /
          (risk * (1 + (n:ℝ) * 2) * capital * time_cost * hist_penalty)) := by
    intro n
    unfold calculate_conqueror_score
    rw [if_neg (ne_of_gt (hdpos n))]
  refine ⟨heq s, hstrict, ?_⟩
  rw [heq s, heq t]
  exact round2_mono (le_of_lt hstrict)

theorem claim_c6_witness :
    calculate_conqueror_score 1 1 1 1 1 1 1 1 ≤
      calculate_conqueror_score 1 1 1 1 1 1 1 0 :=
  (claim_c6_amended 1 1 1 1 1 1 1 0 1 (by norm_num) (by norm_num) (by norm_num)
    (by norm_num) (by norm_num) (by norm_num) (by norm_num) (by norm_num)).2.2

/-- Dot product of two equal-length vectors, as numpy dot. -/
def dot_product (u v : List ℝ) : ℝ := (List.zipWith (fun a b => a * b) u v).sum

/-- View of a stored (rational-valued) embedding vector as a real
vector. -/
def castVec (v : List ℚ) : List ℝ := v.map (fun q => (q : ℝ))

/-- Euclidean norm, as numpy linalg.norm. -/
noncomputable def vec_norm (v : List ℝ) : ℝ := Real.sqrt (dot_product v v)

/-- Cosine similarity as computed in get_semantic_memories. -/
noncomputable def cosine_similarity (u v : List ℝ) : ℝ :=
  dot_product u v / (vec_norm u * vec_norm v)

/-- Embedding of MemoryManager.get_semantic_memories: keep rows whose
confidence reaches the threshold, score each by cosine similarity of
the query vector against the stored embedding, sort descending by
similarity alone and truncate.  Each result is the tuple
(content, outcome, confidence, similarity) that the source returns. -/
noncomputable def get_semantic_memories (mems : List MemRow) (query_vec : List ℝ)
    (limit : ℕ) (threshold : ℚ) : List (List Char × Outcome × ℚ × ℝ) :=
  (sortByDesc (fun t => t.2.2.2)
    ((mems.filter (fun r => decide (threshold ≤ r.confidence))).map
      (fun r => (r.content, r.outcome, r.confidence,
        cosine_similarity query_vec (castVec r.embedding))))).take limit

/-- Modelled from the spec: the decay clause of the section 4.2 trust
function, clamp(1 - age / half_life(tier), 0.1, 1.0). -/
def spec_decay (tier : Tier) (hoursOld : ℚ) : ℚ :=
  max (1/10) (min 1 (1 - hoursOld / half_life tier))

/-- Modelled from the spec: source credibility is 1.0 for an
authoritative actor (administrator, executive, or the scanner's own
automated security action, which the source tags System_Observer),
else 0.6. -/
def spec_source_cred (source : List Char) : ℚ :=
  if (containsSub "Admin".data source || containsSub "CEO".data source ||
      containsSub "Executive".data source ||
      source == "System_Observer".data) = true then 1 else 3/5

/-- Modelled from the spec: the section 4.2 trust function,
0.5 outcome + 0.3 decay + 0.2 source credibility, rounded to two
decimals. -/
def spec_trust (r : MemRow) (now : ℚ) : ℚ :=
  round2 (outcome_score r.outcome * (1/2) +
    spec_decay r.tier (now - r.createdAt) * (3/10) +
    spec_source_cred r.source * (1/5))

/-- Modelled from the spec: the claimed retrieval score of section 4.4,
0.7 cosine similarity + 0.3 trust. -/
noncomputable def spec_retrieval_score (r : MemRow) (query_vec : List ℝ)
    (now : ℚ) : ℝ :=
  (7/10) * cosine_similarity query_vec (castVec r.embedding) +
    (3/10) * ((spec_trust r now : ℚ) : ℝ)

/-- Modelled from the spec: descending insertion by claimed retrieval
score, ties broken by most recent creation time. -/
noncomputable def spec_insert (query_vec : List ℝ) (now : ℚ) (x : MemRow) :
    List MemRow → List MemRow
  | [] => [x]
  | y :: ys =>
    if spec_retrieval_score y query_vec now < spec_retrieval_score x query_vec now ∨
        (spec_retrieval_score y query_vec now = spec_retrieval_score x query_vec now ∧
          y.createdAt ≤ x.createdAt) then
      x :: y :: ys
    else y :: spec_insert query_vec now x ys

/-- Modelled from the spec: sort the store by claimed retrieval score. -/
noncomputable def spec_sort (query_vec : List ℝ) (now : ℚ) :
    List MemRow → List MemRow
  | [] => []
  | x :: xs => spec_insert query_vec now x (spec_sort query_vec now xs)

/-- Modelled from the spec: the section 4.4 retrieve contract — rank
records descending by 0.7 cosine + 0.3 trust, truncate to top_k and tag
each entry with its tier. -/
noncomputable def spec_retrieve (mems : List MemRow) (query_vec : List ℝ)
    (now : ℚ) (topK : ℕ) : List (List Char × ℝ × Tier) :=
  ((spec_sort query_vec now mems).map
    (fun r => (r.content, spec_retrieval_score r query_vec now, r.tier))).take topK

/-- One-record store used to separate the implemented retriever from
the claimed scoring law: fresh tactical record, confidence 0, neutral
outcome, non-authoritative source, embedding equal to the query. -/
def rec_alpha : MemRow :=
  ⟨"alpha".data, "User_Chat".data, .neutral, 0, .tactical, 0, [1, 0]⟩

/-- C1 counterexample: on the one-record store rec_alpha with a query
vector identical to the stored embedding, the implemented retriever
returns trust 0.3 for the record (0.7 confidence + 0.3 decay, with no
similarity term), while the claimed law
0.7 cosine + 0.3 trust(record, now) yields 0.901; the semantic path
returns raw similarity 1, which is also not the claimed blend. -/
theorem claim_c1_counterexample :
    get_relevant_context [rec_alpha] 0 "alpha".data 5 =
      [("alpha".data, 3/10, Tier.tactical)] ∧
    spec_retrieve [rec_alpha] [(1:ℝ), 0] 0 5 =
      [("alpha".data, 901/1000, Tier.tactical)] ∧
    get_semantic_memories [rec_alpha] [(1:ℝ), 0] 5 0 =
      [("alpha".data, Outcome.neutral, 0, 1)] ∧
    ((3/10 : ℝ) ≠ 901/1000) ∧ ((1 : ℝ) ≠ 901/1000) := by
  have htd : retrieval_trust rec_alpha 0 = 3/10 := by
    norm_num [retrieval_trust, rec_alpha, tier_decay, half_life]
  have hemb : castVec rec_alpha.embedding = [(1:ℝ), 0] := by
    norm_num [castVec, rec_alpha]
  have hcos : cosine_similarity [(1:ℝ), 0] [(1:ℝ), 0] = 1 := by
    norm_num [cosine_similarity, dot_product, vec_norm, Real.sqrt_one]
  have hcred : spec_source_cred "User_Chat".data = 3/5 := by
    have hcond : (containsSub "Admin".data "User_Chat".data ||
        containsSub "CEO".data "User_Chat".data ||
        containsSub "Executive".data "User_Chat".data ||
        ("User_Chat".data == "System_Observer".data)) = false := by decide
    unfold spec_source_cred
    rw [hcond]
    norm_num
  have htrust : spec_trust rec_alpha 0 = 67/100 := by
    rw [spec_trust]
    have harg : outcome_score rec_alpha.outcome * (1/2) +
        spec_decay rec_alpha.tier (0 - rec_alpha.createdAt) * (3/10) +
        spec_source_cred rec_alpha.source * (1/5) = 67/100 := by
      rw [show rec_alpha.source = "User_Chat".data from rfl, hcred]
      norm_num [outcome_score, rec_alpha, spec_decay, half_life]
    rw [harg]
    norm_num [round2, roundHalfEven, Int.fract]
  have hscore : spec_retrieval_score rec_alpha [(1:ℝ), 0] 0 = 901/1000 := by
    rw [spec_retrieval_score, hemb, hcos, htrust]
    norm_num
  refine ⟨?_, ?_, ?_, by norm_num, by norm_num⟩
  · have hstep : get_relevant_context [rec_alpha] 0 "alpha".data 5 =
        [(rec_alpha.content, retrieval_trust rec_alpha 0, rec_alpha.tier)] := by
      simp [get_relevant_context, sortByDesc, insertDesc]
    rw [hstep, htd]
    rfl
  · have hstep : spec_retrieve [rec_alpha] [(1:ℝ), 0] 0 5 =
        [(rec_alpha.content, spec_retrieval_score rec_alpha [(1:ℝ), 0] 0,
          rec_alpha.tier)] := by
      simp [spec_retrieve, spec_sort, spec_insert]
    rw [hstep, hscore]
    rfl
  · have hfil : (decide ((0:ℚ) ≤ rec_alpha.confidence)) = true :=
      decide_eq_true (by norm_num [rec_alpha])
    have hstep : get_semantic_memories [rec_alpha] [(1:ℝ), 0] 5 0 =
        [(rec_alpha.content, rec_alpha.outcome, rec_alpha.confidence,
          cosine_similarity [(1:ℝ), 0] (castVec rec_alpha.embedding))] := by
      simp [get_semantic_memories, sortByDesc, insertDesc, List.filter, hfil]
    rw [hstep, hemb, hcos]
    rfl

/-- C1 amended: the implemented retriever scores every stored record as
0.7 confidence + 0.3 tier decay — a query-independent quantity — and
returns the records sorted descending by that score (stably), truncated
to top_k and tagged with their tier; the query text never influences
the result. -/
theorem claim_c1_amended (mems : List MemRow) (now : ℚ) (q1 q2 : List Char)
    (k : ℕ) :
    get_relevant_context mems now q1 k = get_relevant_context mems now q2 k ∧
    ∃ l : List (List Char × ℚ × Tier),
      l.Perm (mems.map (fun r => (r.content, retrieval_trust r now, r.tier))) ∧
      l.Sorted (fun a b => b.2.1 ≤ a.2.1) ∧
      get_relevant_context mems now q1 k = l.take k := by
  refine ⟨rfl,
    sortByDesc (fun t => t.2.1)
      (mems.map (fun r => (r.content, retrieval_trust r now, r.tier))),
    sortByDesc_perm _ _, sortByDesc_sorted _ _, ?_⟩
  rfl

/-- Sensitivity threshold from the security configuration. -/
def SENSITIVITY_THRESHOLD : ℕ := 80

/-- Extraction of the classifier score inside background_deep_scanner:
Python int() applied to the concatenation of every digit character of
the response; when no digit exists, int() raises and the handler
substitutes 0. -/
def parse_classifier_score (response : List Char) : ℕ :=
  let ds := response.filter Char.isDigit
  if ds.isEmpty then 0 else digitsToNat ds

/-- Modelled from the spec: extraction of the first parseable integer
signal of section 6 — the first maximal digit run of the response,
or 0 when none exists. -/
def first_integer_signal (response : List Char) : ℕ :=
  let run := (response.dropWhile (fun c => !(c.isDigit))).takeWhile Char.isDigit
  if run.isEmpty then 0 else digitsToNat run

/-- State of the scanner-visible database: the memories table and the
processed_files table (path, hash) keyed by path. -/
structure ScanState where
  memories : List MemRow
  processed : List (List Char × List Char)
  deriving DecidableEq

/-- Lookup of a prior hash in processed_files by primary key. -/
def lookup_hash (ps : List (List Char × List Char)) (path : List Char) :
    Option (List Char) :=
  (ps.find? (fun e => e.1 == path)).map (fun e => e.2)

/-- Model of INSERT OR REPLACE into processed_files: SQLite deletes any
row that conflicts on the primary key and inserts the new row with a
fresh rowid, so the new row ends up last in scan order. -/
def upsert_hash (ps : List (List Char × List Char)) (path h : List Char) :
    List (List Char × List Char) :=
  ps.filter (fun e => !(e.1 == path)) ++ [(path, h)]

/-- Text of the memory record written after a successful quarantine. -/
def security_alert_content (fileName : List Char) (score : ℕ) : List Char :=
  "SECURITY ALERT: Moved ".data ++ fileName ++ " to vault (Score: ".data ++
    Nat.toDigits 10 score ++ ")".data

/-- Embedding of one file's pass through background_deep_scanner.
External effects are parameters: hashResult is what get_file_hash
returned (none models an unreadable file), externOk records that the
snippet read and the classifier call completed without raising,
classifierResponse is the raw reply text, moveResult is what
move_to_vault returned (none models a failed move), and embedded is the
encoder's vector for the alert content.  A file whose stored hash
matches the current hash is skipped before any of those effects are
consulted. -/
def scan_file_step (st : ScanState) (path fileName : List Char)
    (hashResult : Option (List Char)) (externOk : Bool)
    (classifierResponse : List Char) (moveResult : Option (List Char))
    (now : ℚ) (embedded : List ℚ) : ScanState :=
  match hashResult with
  | none => st
  | some h =>
    if lookup_hash st.processed path = some h then st
    else if !externOk then st
    else
      let score := parse_classifier_score classifierResponse
      let memories :=
        if SENSITIVITY_THRESHOLD ≤ score then
          match moveResult with
          | some _ =>
            save_intelligent_memory st.memories
              (security_alert_content fileName score) "System_Observer".data
              .success 1 now embedded
          | none => st.memories
        else st.memories
      ⟨memories, upsert_hash st.processed path h⟩

/-- C5: a scan pass over a file whose current content hash equals the
stored hash for that path leaves the database untouched: no new
memory record and no write to processed_files. -/
theorem claim_c5_delta_sync (st : ScanState) (path fileName h : List Char)
    (externOk : Bool) (response : List Char) (moveResult : Option (List Char))
    (now : ℚ) (embedded : List ℚ)
    (hmatch : lookup_hash st.processed path = some h) :
    scan_file_step st path fileName (some h) externOk response moveResult
      now embedded = st := by
  simp [scan_file_step, hmatch]

/-- One-entry processed_files table used to witness the delta-sync
skip. -/
def sample_state : ScanState := ⟨[], [("/a.txt".data, "h1".data)]⟩

theorem claim_c5_witness :
    lookup_hash sample_state.processed "/a.txt".data = some "h1".data ∧
    scan_file_step sample_state "/a.txt".data "a.txt".data (some "h1".data)
      true "99".data none 0 [] = sample_state :=
  ⟨by decide,
   claim_c5_delta_sync sample_state "/a.txt".data "a.txt".data "h1".data
     true "99".data none 0 [] (by decide)⟩

theorem lookup_upsert (ps : List (List Char × List Char)) (path h : List Char) :
    lookup_hash (upsert_hash ps path h) path = some h := by
  unfold upsert_hash lookup_hash
  induction ps with
  | nil => simp [List.find?]
  | cons e es ih =>
    by_cases he : e.1 == path
    · simpa [List.filter, he] using ih
    · simpa [List.filter, List.find?, he] using ih

/-- C10: when a file's hash is new or changed, its classification score
reaches the quarantine threshold, but the vault move fails (returns no
vault path), the scanner records no memory yet still upserts the
processed_files row with the current hash; a subsequent pass over the
unchanged file is then a no-op. -/
theorem claim_c10_failed_move (st : ScanState) (path fileName h : List Char)
    (response : List Char) (now : ℚ) (embedded : List ℚ)
    (hnew : lookup_hash st.processed path ≠ some h)
    (hscore : SENSITIVITY_THRESHOLD ≤ parse_classifier_score response) :
    (scan_file_step st path fileName (some h) true response none now
        embedded).memories = st.memories ∧
    (scan_file_step st path fileName (some h) true response none now
        embedded).processed = upsert_hash st.processed path h ∧
    scan_file_step
        (scan_file_step st path fileName (some h) true response none now embedded)
        path fileName (some h) true response none now embedded =
      scan_file_step st path fileName (some h) true response none now embedded := by
  have hstep : scan_file_step st path fileName (some h) true response none now
      embedded = ⟨st.memories, upsert_hash st.processed path h⟩ := by
    simp [scan_file_step, hnew, hscore]
  refine ⟨by rw [hstep], by rw [hstep], ?_⟩
  rw [hstep]
  simp [scan_file_step, lookup_upsert]

theorem claim_c10_witness :
    (scan_file_step (ScanState.mk [] []) "/b.txt".data "b.txt".data
        (some "h2".data) true "95".data none 0 []).memories = [] ∧
    (scan_file_step (ScanState.mk [] []) "/b.txt".data "b.txt".data
        (some "h2".data) true "95".data none 0 []).processed =
      upsert_hash [] "/b.txt".data "h2".data :=
  ⟨(claim_c10_failed_move (ScanState.mk [] []) "/b.txt".data "b.txt".data
      "h2".data "95".data 0 [] (by decide) (by decide)).1,
   (claim_c10_failed_move (ScanState.mk [] []) "/b.txt".data "b.txt".data
      "h2".data "95".data 0 [] (by decide) (by decide)).2.1⟩

theorem filter_append_all_not {p : Char → Bool} {a : List Char}
    (l : List Char) (ha : ∀ c ∈ a, p c = false) :
    (a ++ l).filter p = l.filter p := by
  induction a with
  | nil => simp
  | cons c cs ih =>
    have hc := ha c (List.mem_cons_self c cs)
    have hcs : ∀ x ∈ cs, p x = false := fun x hx => ha x (List.mem_cons_of_mem c hx)
    simp [List.filter, hc, ih hcs]

theorem filter_all_true {p : Char → Bool} {d : List Char}
    (hd : ∀ c ∈ d, p c = true) : d.filter p = d := by
  induction d with
  | nil => rfl
  | cons c cs ih =>
    have hc := hd c (List.mem_cons_self c cs)
    have hcs : ∀ x ∈ cs, p x = true := fun x hx => hd x (List.mem_cons_of_mem c hx)
    simp [List.filter, hc, ih hcs]

theorem dropWhile_append_all {p : Char → Bool} {a : List Char}
    (l : List Char) (ha : ∀ c ∈ a, p c = true) :
    (a ++ l).dropWhile p = l.dropWhile p := by
  induction a with
  | nil => simp
  | cons c cs ih =>
    have hc := ha c (List.mem_cons_self c cs)
    have hcs : ∀ x ∈ cs, p x = true := fun x hx => ha x (List.mem_cons_of_mem c hx)
    simp [List.dropWhile, hc, ih hcs]

theorem dropWhile_all_true {p : Char → Bool} {l : List Char}
    (hl : ∀ c ∈ l, p c = true) : l.dropWhile p = [] := by
  induction l with
  | nil => rfl
  | cons c cs ih =>
    have hc := hl c (List.mem_cons_self c cs)
    have hcs : ∀ x ∈ cs, p x = true := fun x hx => hl x (List.mem_cons_of_mem c hx)
    simp [List.dropWhile, hc, ih hcs]

theorem takeWhile_append_all {p : Char → Bool} {d : List Char}
    (l : List Char) (hd : ∀ c ∈ d, p c = true) :
    (d ++ l).takeWhile p = d ++ l.takeWhile p := by
  induction d with
  | nil => simp
  | cons c cs ih =>
    have hc := hd c (List.mem_cons_self c cs)
    have hcs : ∀ x ∈ cs, p x = true := fun x hx => hd x (List.mem_cons_of_mem c hx)
    simp [List.takeWhile, hc, ih hcs]

theorem takeWhile_all_false {p : Char → Bool} {l : List Char}
    (hl : ∀ c ∈ l, p c = false) : l.takeWhile p = [] := by
  cases l with
  | nil => rfl
  | cons c cs => simp [List.takeWhile, hl c (List.mem_cons_self c cs)]

/-- C8 counterexample: on the classifier reply 85/100 the scanner's
parser concatenates every digit and reads 85100, whereas the first
parseable integer signal of the reply is 85. -/
theorem claim_c8_counterexample :
    parse_classifier_score "85/100".data = 85100 ∧
    first_integer_signal "85/100".data = 85 ∧
    (85100 : ℕ) ≠ 85 := ⟨by decide, by decide, by decide⟩

/-- C8 amended: the scanner concatenates all digit characters of the
response (wherever they occur) and parses the concatenation as the
score; a response with no digit characters yields score 0 (fail open);
when the response carries its digits as one contiguous run — a single
integer surrounded by prose — this agrees with taking the first
parseable integer. -/
theorem claim_c8_amended (s a d b : List Char)
    (ha : ∀ c ∈ a, c.isDigit = false) (hd : ∀ c ∈ d, c.isDigit = true)
    (hb : ∀ c ∈ b, c.isDigit = false) (hs : s = a ++ d ++ b) :
    parse_classifier_score s = (if d.isEmpty then 0 else digitsToNat d) ∧
    parse_classifier_score s = first_integer_signal s := by
  subst hs
  have hfil : (a ++ d ++ b).filter Char.isDigit = d := by
    rw [List.append_assoc, filter_append_all_not (d ++ b) ha, List.filter_append,
      filter_all_true hd]
    simp [List.filter_eq_nil_iff]
    exact hb
  have h1 : parse_classifier_score (a ++ d ++ b) =
      (if d.isEmpty then 0 else digitsToNat d) := by
    rw [parse_classifier_score, hfil]
  refine ⟨h1, ?_⟩
  rw [h1, first_integer_signal]
  have hnd : ∀ c ∈ a, (!(c.isDigit)) = true := fun c hc => by simp [ha c hc]
  rw [List.append_assoc, dropWhile_append_all (d ++ b) hnd]
  cases d with
  | nil =>
    have hbd : ∀ c ∈ b, (!(c.isDigit)) = true := fun c hc => by simp [hb c hc]
    rw [List.nil_append, dropWhile_all_true hbd]
    simp
  | cons c0 d2 =>
    have hc0 : c0.isDigit = true := hd c0 (List.mem_cons_self c0 d2)
    have hdw : ((c0 :: d2) ++ b).dropWhile (fun c => !(c.isDigit)) =
        (c0 :: d2) ++ b := by
      simp [List.dropWhile, hc0]
    rw [hdw, takeWhile_append_all b hd, takeWhile_all_false hb]
    simp

theorem claim_c8_witness :
    parse_classifier_score "Score: 85 ok".data = 85 ∧
    parse_classifier_score "Score: 85 ok".data =
      first_integer_signal "Score: 85 ok".data :=
  ⟨(claim_c8_amended "Score: 85 ok".data "Score: ".data "85".data " ok".data
      (by decide) (by decide) (by decide) (by decide)).1.trans (by decide),
   (claim_c8_amended "Score: 85 ok".data "Score: ".data "85".data " ok".data
      (by decide) (by decide) (by decide) (by decide)).2⟩

/-- Model of the SQLite LIKE operator: percent matches any run of
characters, underscore matches exactly one character, and ordinary
characters compare case-insensitively (SQLite folds ASCII case in LIKE
by default). -/
def like_match (patt text : List Char) : Bool :=
  match patt, text with
  | [], t => t.isEmpty
  | a :: p, t =>
    if a == '%' then
      like_match p t ||
        (match t with
         | [] => false
         | _ :: t2 => like_match (a :: p) t2)
    else
      match t with
      | [] => false
      | c :: t2 =>
        if a == '_' then like_match p t2
        else (lowerChar a == lowerChar c) && like_match p t2
termination_by (patt.length, text.length)

/-- Pattern built by forget_memory around the keyword. -/
def like_pattern (keyword : List Char) : List Char := '%' :: (keyword ++ ['%'])

/-- Embedding of MemoryManager.forget_memory: DELETE FROM memories WHERE
content LIKE the percent-wrapped keyword, then return True (the count of
removed rows is never computed by the source). -/
def forget_memory (mems : List MemRow) (keyword : List Char) : List MemRow × Bool :=
  (mems.filter (fun r => !(like_match (like_pattern keyword) r.content)), true)

theorem like_match_nil_percent : ∀ t : List Char, like_match ['%'] t = true := by
  intro t
  induction t with
  | nil => simp [like_match]
  | cons c t2 ih => simp [like_match, ih]

theorem like_match_percent_cons (p : List Char) :
    ∀ t, like_match ('%' :: p) t = true ↔ ∃ n, like_match p (t.drop n) = true := by
  intro t
  induction t with
  | nil =>
    constructor
    · intro h
      refine ⟨0, ?_⟩
      simpa [like_match] using h
    · rintro ⟨n, hn⟩
      simp only [List.drop_nil] at hn
      simp [like_match, hn]
  | cons c t2 ih =>
    constructor
    · intro h
      simp only [like_match] at h
      rcases Bool.or_eq_true_iff.1 h with h1 | h1
      · exact ⟨0, h1⟩
      · rcases ih.1 h1 with ⟨n, hn⟩
        exact ⟨n + 1, hn⟩
    · rintro ⟨n, hn⟩
      simp only [like_match]
      refine Bool.or_eq_true_iff.2 ?_
      cases n with
      | zero => exact Or.inl hn
      | succ m => exact Or.inr (ih.2 ⟨m, hn⟩)

theorem like_match_literal (kw : List Char)
    (hw : kw.all (fun c => !(c == '%') && !(c == '_')) = true) :
    ∀ t, like_match (kw ++ ['%']) t = isPrefixL (lowerStr kw) (lowerStr t) := by
  induction kw with
  | nil =>
    intro t
    simp [like_match_nil_percent, lowerStr, isPrefixL]
  | cons a kw2 ih =>
    have hw' := hw
    rw [List.all_cons] at hw'
    have hsplit := Bool.and_eq_true_iff.1 hw'
    have ha := Bool.and_eq_true_iff.1 hsplit.1
    have ha1 : (a == '%') = false := by
      have := ha.1
      cases hx : (a == '%') <;> simp [hx] at this ⊢
    have ha2 : (a == '_') = false := by
      have := ha.2
      cases hx : (a == '_') <;> simp [hx] at this ⊢
    intro t
    cases t with
    | nil => simp [like_match, ha1, lowerStr, isPrefixL]
    | cons c t2 =>
      simp only [like_match, List.cons_append, ha1, ha2, Bool.false_eq_true,
        if_false, lowerStr, List.map_cons, isPrefixL]
      rw [ih hsplit.2 t2]
      rfl

theorem containsSub_iff (needle : List Char) :
    ∀ hay, containsSub needle hay = true ↔
      ∃ n, isPrefixL needle (hay.drop n) = true := by
  intro hay
  induction hay with
  | nil =>
    constructor
    · intro h
      refine ⟨0, ?_⟩
      simpa [containsSub] using h
    · rintro ⟨n, hn⟩
      simp only [List.drop_nil] at hn
      simpa [containsSub] using hn
  | cons c t ih =>
    constructor
    · intro h
      simp only [containsSub] at h
      rcases Bool.or_eq_true_iff.1 h with h1 | h1
      · exact ⟨0, h1⟩
      · rcases ih.1 h1 with ⟨n, hn⟩
        exact ⟨n + 1, hn⟩
    · rintro ⟨n, hn⟩
      simp only [containsSub]
      refine Bool.or_eq_true_iff.2 ?_
      cases n with
      | zero => exact Or.inl hn
      | succ m => exact Or.inr (ih.2 ⟨m, hn⟩)

theorem lowerStr_drop (s : List Char) (n : ℕ) :
    lowerStr (s.drop n) = (lowerStr s).drop n := by
  simp [lowerStr, List.map_drop]

theorem like_pattern_eq_containsSub (kw : List Char)
    (hw : kw.all (fun c => !(c == '%') && !(c == '_')) = true) (c : List Char) :
    like_match ('%' :: (kw ++ ['%'])) c = containsSub (lowerStr kw) (lowerStr c) := by
  have hiff : like_match ('%' :: (kw ++ ['%'])) c = true ↔
      containsSub (lowerStr kw) (lowerStr c) = true := by
    rw [like_match_percent_cons (kw ++ ['%']) c, containsSub_iff (lowerStr kw) (lowerStr c)]
    constructor
    · rintro ⟨n, hn⟩
      refine ⟨n, ?_⟩
      rw [like_match_literal kw hw (c.drop n), lowerStr_drop] at hn
      exact hn
    · rintro ⟨n, hn⟩
      refine ⟨n, ?_⟩
      rw [like_match_literal kw hw (c.drop n), lowerStr_drop]
      exact hn
  cases hL : like_match ('%' :: (kw ++ ['%'])) c
  · cases hR : containsSub (lowerStr kw) (lowerStr c)
    · rfl
    · rw [hiff.2 hR] at hL
      exact absurd hL (by simp)
  · rw [hiff.1 hL]

/-- Store rows used to separate the boolean result of forget_memory
from a removal count. -/
def row_a : MemRow :=
  ⟨"project alpha".data, "User_Chat".data, .neutral, 1/2, .tactical, 0, []⟩

def row_b : MemRow :=
  ⟨"ALPHA review".data, "User_Chat".data, .neutral, 1/2, .tactical, 0, []⟩

/-- C9 counterexample: forget_memory returns the boolean True, not the
number of removed records — deleting two records and deleting zero
records produce the same return value, so no caller can read a count
off it. -/
theorem claim_c9_counterexample :
    (forget_memory [row_a, row_b] "alpha".data).2 =
      (forget_memory [] "alpha".data).2 ∧
    [row_a, row_b].length -
      (forget_memory [row_a, row_b] "alpha".data).1.length = 2 ∧
    ([] : List MemRow).length - (forget_memory [] "alpha".data).1.length = 0 ∧
    (2 : ℕ) ≠ 0 := by
  have key : ∀ r : MemRow, like_match (like_pattern "alpha".data) r.content =
      containsSub (lowerStr "alpha".data) (lowerStr r.content) := fun r =>
    like_pattern_eq_containsSub "alpha".data (by decide) r.content
  have ca : containsSub (lowerStr "alpha".data) (lowerStr row_a.content) = true := by
    decide
  have cb : containsSub (lowerStr "alpha".data) (lowerStr row_b.content) = true := by
    decide
  have e1 : (forget_memory [row_a, row_b] "alpha".data).1 = [] := by
    simp [forget_memory, List.filter, key row_a, key row_b, ca, cb]
  have e2 : (forget_memory [] "alpha".data).1 = [] := rfl
  refine ⟨rfl, ?_, ?_, by decide⟩
  · rw [e1]
    rfl
  · rw [e2]
    rfl

/-- C9 amended: for every keyword free of the LIKE wildcards percent
and underscore, forget_memory removes exactly those records whose
content contains the keyword as a case-insensitive substring, and it
returns the boolean True (a success flag), not the count of removed
records. -/
theorem claim_c9_amended (mems : List MemRow) (keyword : List Char)
    (hw : keyword.all (fun c => !(c == '%') && !(c == '_')) = true) :
    (forget_memory mems keyword).1 =
      mems.filter
        (fun r => !(containsSub (lowerStr keyword) (lowerStr r.content))) ∧
    (forget_memory mems keyword).2 = true := by
  refine ⟨?_, rfl⟩
  unfold forget_memory
  simp only
  refine List.filter_congr ?_
  intro r _
  rw [show like_pattern keyword = '%' :: (keyword ++ ['%']) from rfl,
    like_pattern_eq_containsSub keyword hw r.content]

theorem claim_c9_witness :
    (forget_memory [row_a, row_b] "alpha".data).1 = [] ∧
    (forget_memory [row_a, row_b] "alpha".data).2 = true :=
  ⟨(claim_c9_amended [row_a, row_b] "alpha".data (by decide)).1.trans (by decide),
   (claim_c9_amended [row_a, row_b] "alpha".data (by decide)).2⟩
